import Mathlib

/-!
Verification of the s-expression utility core of `ulf2english` (`util.py`).

Trees are embedded as a nested inductive `Sexpr`: an atom carries a scalar
value (string, integer, or the null marker), and a compound carries an
ordered list of children.  Structural equality of Python values is modelled
by decidable equality on `Sexpr`.  Functions that can raise a `TypeError`
in Python (iterating a non-iterable atom) return `Option`.
-/

/-- Atomic (non-list) Python values appearing in trees: strings, integers,
and the null marker `None`. -/
inductive Atm where
  | str : String → Atm
  | num : Int → Atm
  | nil : Atm
deriving DecidableEq, Repr

/-- A tree (s-expression): an atom, or an ordered list of trees. -/
inductive Sexpr where
  | atom : Atm → Sexpr
  | list : List Sexpr → Sexpr
deriving Repr

/-- Strong induction over `Sexpr`: to prove `P t` for every tree it is
enough to prove it for atoms and for lists all of whose members satisfy `P`. -/
theorem Sexpr.strongInd (P : Sexpr → Prop) (ha : ∀ s, P (Sexpr.atom s))
    (hl : ∀ xs, (∀ x ∈ xs, P x) → P (Sexpr.list xs)) : ∀ t, P t
  | Sexpr.atom s => ha s
  | Sexpr.list xs => hl xs (fun x hx => Sexpr.strongInd P ha hl x)
termination_by t => sizeOf t
decreasing_by
  have := List.sizeOf_lt_of_mem hx
  simp only [Sexpr.list.sizeOf_spec]
  omega

mutual

/-- Boolean structural equality on trees (Python `==`). -/
def Sexpr.beq : Sexpr → Sexpr → Bool
  | Sexpr.atom a, Sexpr.atom b => a == b
  | Sexpr.list xs, Sexpr.list ys => Sexpr.beqList xs ys
  | _, _ => false

/-- Boolean structural equality on lists of trees. -/
def Sexpr.beqList : List Sexpr → List Sexpr → Bool
  | [], [] => true
  | x :: xs, y :: ys => Sexpr.beq x y && Sexpr.beqList xs ys
  | _, _ => false

end

theorem Sexpr.beq_iff : ∀ a b : Sexpr, Sexpr.beq a b = true ↔ a = b := by
  intro a
  induction a using Sexpr.strongInd with
  | ha s =>
    intro b
    cases b with
    | atom t => simp [Sexpr.beq]
    | list ys => simp [Sexpr.beq]
  | hl xs ih =>
    intro b
    cases b with
    | atom t => simp [Sexpr.beq]
    | list ys =>
      simp only [Sexpr.beq, Sexpr.list.injEq]
      induction xs generalizing ys with
      | nil => cases ys <;> simp [Sexpr.beqList]
      | cons x xs ihx =>
        cases ys with
        | nil => simp [Sexpr.beqList]
        | cons y ys =>
          simp only [Sexpr.beqList, Bool.and_eq_true, List.cons.injEq]
          rw [ih x (by simp) y, ihx (fun z hz b => ih z (by simp [hz]) b) ys]

instance : DecidableEq Sexpr :=
  fun a b => decidable_of_iff (Sexpr.beq a b = true) (Sexpr.beq_iff a b)

/-- Short constructor for string atoms, used in concrete test trees. -/
def A (s : String) : Sexpr := Sexpr.atom (Atm.str s)

/-- `listp`: whether an input is a list (including the empty list). -/
def listp (lst : Sexpr) : Bool :=
  match lst with
  | Sexpr.list _ => true
  | Sexpr.atom _ => false

/-- Python truthiness of a value (`not lst` is `!truthy lst`). -/
def truthy (lst : Sexpr) : Bool :=
  match lst with
  | Sexpr.list xs => !xs.isEmpty
  | Sexpr.atom (Atm.str s) => !s.isEmpty
  | Sexpr.atom (Atm.num n) => decide (n ≠ 0)
  | Sexpr.atom Atm.nil => false

/-- `atom`: whether an input is an atom (either empty list or a non-list);
source: `not lst or not listp(lst)`. -/
def atom (lst : Sexpr) : Bool := !truthy lst || !listp lst

/-- `cons` restricted to the list case of the source (`[lst1] + lst2`),
the only case exercised by `extract_category`. -/
def cons {α : Type} (lst1 : α) (lst2 : List α) : List α := lst1 :: lst2

/-- `append`: concatenate the sublists of `lst` (`[x for l in lst for x in l]`). -/
def append {α : Type} : List (List α) → List α
  | [] => []
  | l :: ls => l ++ append ls

/-- `split_by_cond`: split a list into (non-matching, matching) by `cndfn`. -/
def split_by_cond (lst : List Sexpr) (cndfn : Sexpr → Bool) : List Sexpr × List Sexpr :=
  (lst.filter (fun x => !cndfn x), lst.filter cndfn)

/-- `subst`'s inner recursion `subst_rec`: if the tree equals `b` return `a`,
else atoms are returned unchanged, else recurse into every child. -/
def subst_rec (a b : Sexpr) (x : Sexpr) : Sexpr :=
  if x = b then a
  else if atom x then x
  else match x with
    | Sexpr.list xs => Sexpr.list (xs.attach.map (fun y => subst_rec a b y.1))
    | Sexpr.atom s => Sexpr.atom s
termination_by sizeOf x
decreasing_by
  have := List.sizeOf_lt_of_mem y.2
  simp only [Sexpr.list.sizeOf_spec]
  omega

/-- Unfolding equation of `subst_rec` without the `attach` bookkeeping. -/
theorem subst_rec_eq (a b x : Sexpr) :
    subst_rec a b x =
      if x = b then a
      else if atom x then x
      else match x with
        | Sexpr.list xs => Sexpr.list (xs.map (subst_rec a b))
        | Sexpr.atom s => Sexpr.atom s := by
  rw [subst_rec.eq_def]
  rcases x with s | xs
  · rfl
  · simp only [List.attach_map_val]

/-- `subst(a, b, lst)`: recursively substitute `a` for `b` throughout `lst`. -/
def subst (a b lst : Sexpr) : Sexpr := subst_rec a b lst

/-- `substall(lst, replist)`: apply `subst(a, b, ·)` for each `(b, a)` pair
of `replist`, in order. -/
def substall (lst : Sexpr) (replist : List (Sexpr × Sexpr)) : Sexpr :=
  match replist with
  | [] => lst
  | (b, a) :: rest => substall (subst a b lst) rest

/-- The element loop of `rec_replace` over the members of a list: a member
equal to `old` becomes `new`, a list member is recursed into (the recursive
call re-checks whole-value equality, which is false in that branch), any
other member passes through. -/
def rec_replace_body (old new : Sexpr) : List Sexpr → List Sexpr
  | [] => []
  | e :: rest =>
    if e = old then new :: rec_replace_body old new rest
    else match e with
      | Sexpr.list ys => Sexpr.list (rec_replace_body old new ys) :: rec_replace_body old new rest
      | Sexpr.atom a => Sexpr.atom a :: rec_replace_body old new rest
termination_by l => sizeOf l

/-- `rec_replace(old, new, lst)`.  After the whole-value check, Python
iterates over `lst`: a list iterates its members, a string iterates its
characters (each a one-character string), and a number or `None` raises
`TypeError`, modelled as `none`. -/
def rec_replace (old new lst : Sexpr) : Option Sexpr :=
  if lst = old then some new
  else match lst with
    | Sexpr.list xs => some (Sexpr.list (rec_replace_body old new xs))
    | Sexpr.atom (Atm.str s) =>
        some (Sexpr.list (s.toList.map (fun c =>
          if Sexpr.atom (Atm.str c.toString) = old then new
          else Sexpr.atom (Atm.str c.toString))))
    | Sexpr.atom (Atm.num _) => none
    | Sexpr.atom Atm.nil => none

/-- The element loop of `rec_remove`: a member equal to `target` is dropped,
a list member is recursed into, any other member passes through. -/
def rec_remove_body (target : Sexpr) : List Sexpr → List Sexpr
  | [] => []
  | e :: rest =>
    if e = target then rec_remove_body target rest
    else match e with
      | Sexpr.list ys => Sexpr.list (rec_remove_body target ys) :: rec_remove_body target rest
      | Sexpr.atom a => Sexpr.atom a :: rec_remove_body target rest
termination_by l => sizeOf l

/-- `rec_remove(target, lst)`.  There is no whole-value check: Python
immediately iterates over `lst`, so a number or `None` input raises
`TypeError` (modelled as `none`) and a string input iterates its characters. -/
def rec_remove (target lst : Sexpr) : Option Sexpr :=
  match lst with
  | Sexpr.list xs => some (Sexpr.list (rec_remove_body target xs))
  | Sexpr.atom (Atm.str s) =>
      some (Sexpr.list ((s.toList.map (fun c => Sexpr.atom (Atm.str c.toString))).filter
        (fun e => !(decide (e = target)))))
  | Sexpr.atom (Atm.num _) => none
  | Sexpr.atom Atm.nil => none

/-- The branch of `extract_category`'s inner `rec` choosing, for a compound
node, the members to recurse into (`no_sent_ops`) and the members extracted
at this level (`sent_ops`): if the ignore function accepts the node the
split is skipped, so nothing is extracted at this level — but the members
are still recursed into by the loop that follows. -/
def keep_split (catfn : Sexpr → Bool) (ignfn : Option (Sexpr → Bool))
    (xs : List Sexpr) : List Sexpr × List Sexpr :=
  match ignfn with
  | some g => if g (Sexpr.list xs) then (xs, []) else split_by_cond xs catfn
  | none => split_by_cond xs catfn

theorem keep_split_sizeOf_le (catfn : Sexpr → Bool) (ignfn : Option (Sexpr → Bool))
    (xs : List Sexpr) : sizeOf (keep_split catfn ignfn xs).1 ≤ sizeOf xs := by
  have hf : ∀ p : Sexpr → Bool, sizeOf (xs.filter p) ≤ sizeOf xs := by
    intro p
    induction xs with
    | nil => simp
    | cons x rest ih =>
      simp only [List.filter_cons]
      cases hp : p x <;> simp [hp, List.cons.sizeOf_spec] <;> omega
  rcases ignfn with _ | g
  · exact hf _
  · simp only [keep_split]
    rcases hg : g (Sexpr.list xs) with _ | _
    · simp only [Bool.false_eq_true, if_false]
      exact hf _
    · simp

theorem keep_split_subset (catfn : Sexpr → Bool) (ignfn : Option (Sexpr → Bool))
    (xs : List Sexpr) : ∀ x ∈ (keep_split catfn ignfn xs).1, x ∈ xs := by
  intro x hx
  rcases ignfn with _ | g
  · exact List.mem_of_mem_filter hx
  · simp only [keep_split] at hx
    rcases hg : g (Sexpr.list xs) with _ | _
    · rw [hg] at hx
      simp only [Bool.false_eq_true, if_false] at hx
      exact List.mem_of_mem_filter hx
    · rw [hg] at hx
      simpa using hx

/-- The inner recursion `rec` of `extract_category`: atoms return themselves
with no matches; a compound node computes `no_sent_ops`/`sent_ops` (see
`keep_split`), recurses into every member of `no_sent_ops`, rebuilds the
node from the recursed first components, and returns the extracted matches
`append(cons(sent_ops, [x[1] for x in recursed]))`. -/
def extract_rec (catfn : Sexpr → Bool) (ignfn : Option (Sexpr → Bool))
    (lst : Sexpr) : Sexpr × List Sexpr :=
  if atom lst then (lst, [])
  else match lst with
    | Sexpr.atom s => (Sexpr.atom s, [])
    | Sexpr.list xs =>
      let recursed := (keep_split catfn ignfn xs).1.attach.map
        (fun y => extract_rec catfn ignfn y.1)
      (Sexpr.list (recursed.map Prod.fst),
        append (cons (keep_split catfn ignfn xs).2 (recursed.map Prod.snd)))
termination_by sizeOf lst
decreasing_by
  simp_wf
  rename_i xs
  have h1 := keep_split_subset catfn ignfn xs y.1 y.2
  have h2 := List.sizeOf_lt_of_mem h1
  omega

/-- `extract_category(lst, catfn, ignfn)` (the optional `ignfn` defaults to
`none` at the two call sites below). -/
def extract_category (lst : Sexpr) (catfn : Sexpr → Bool)
    (ignfn : Option (Sexpr → Bool)) : Sexpr × List Sexpr :=
  extract_rec catfn ignfn lst

/-- `rec_find(lst, x, test)`: the matches of `extract_category` with the
predicate `lambda y: test(x, y)` (the source's default `test` is `==`). -/
def rec_find (lst x : Sexpr) (test : Sexpr → Sexpr → Bool) : List Sexpr :=
  (extract_category lst (fun y => test x y) none).2

/-- `rec_find_if(lst, cndfn)`: the matches of `extract_category lst cndfn`. -/
def rec_find_if (lst : Sexpr) (cndfn : Sexpr → Bool) : List Sexpr :=
  (extract_category lst cndfn none).2

theorem atom_atom (s : Atm) : atom (Sexpr.atom s) = true := by
  simp [atom, listp]

theorem atom_nil_list : atom (Sexpr.list []) = true := by
  simp [atom, truthy]

theorem atom_cons_list (x : Sexpr) (xs : List Sexpr) :
    atom (Sexpr.list (x :: xs)) = false := by
  simp [atom, truthy, listp]

theorem extract_rec_atom (catfn : Sexpr → Bool) (ignfn : Option (Sexpr → Bool)) (s : Atm) :
    extract_rec catfn ignfn (Sexpr.atom s) = (Sexpr.atom s, []) := by
  rw [extract_rec.eq_def, atom_atom]
  rfl

theorem extract_rec_nil (catfn : Sexpr → Bool) (ignfn : Option (Sexpr → Bool)) :
    extract_rec catfn ignfn (Sexpr.list []) = (Sexpr.list [], []) := by
  rw [extract_rec.eq_def, atom_nil_list]
  rfl

/-- Unfolding equation of `extract_rec` at a non-empty compound, with the
`attach` bookkeeping and the `cons`/`append` combination flattened out. -/
theorem extract_rec_list (catfn : Sexpr → Bool) (ignfn : Option (Sexpr → Bool))
    (x : Sexpr) (xs : List Sexpr) :
    extract_rec catfn ignfn (Sexpr.list (x :: xs)) =
      (Sexpr.list ((keep_split catfn ignfn (x :: xs)).1.map
          (fun c => (extract_rec catfn ignfn c).1)),
        (keep_split catfn ignfn (x :: xs)).2 ++
          append ((keep_split catfn ignfn (x :: xs)).1.map
            (fun c => (extract_rec catfn ignfn c).2))) := by
  rw [extract_rec.eq_def, atom_cons_list]
  simp only [Bool.false_eq_true, if_false, List.map_map]
  rw [show (Prod.fst ∘ fun y : {z // z ∈ (keep_split catfn ignfn (x :: xs)).1} =>
        extract_rec catfn ignfn y.1) =
      (fun y : {z // z ∈ (keep_split catfn ignfn (x :: xs)).1} =>
        (extract_rec catfn ignfn y.1).1) from rfl]
  rw [show (Prod.snd ∘ fun y : {z // z ∈ (keep_split catfn ignfn (x :: xs)).1} =>
        extract_rec catfn ignfn y.1) =
      (fun y : {z // z ∈ (keep_split catfn ignfn (x :: xs)).1} =>
        (extract_rec catfn ignfn y.1).2) from rfl]
  rw [List.attach_map_val _ (fun c => (extract_rec catfn ignfn c).1),
    List.attach_map_val _ (fun c => (extract_rec catfn ignfn c).2)]
  rfl

/-- `mapM` over `Option`, written out explicitly: `none` as soon as the
function fails on a member. -/
def mapM_opt {α β : Type} (f : α → Option β) : List α → Option (List β)
  | [] => some []
  | x :: xs =>
    match f x, mapM_opt f xs with
    | some r, some rs => some (r :: rs)
    | _, _ => none

/-- Fuel-indexed variant of `extract_rec`, used to state termination: the
recursion of the source is reproduced with an explicit depth budget, and
`none` signals that the budget was exhausted. -/
def extract_fuel (catfn : Sexpr → Bool) (ignfn : Option (Sexpr → Bool)) :
    Nat → Sexpr → Option (Sexpr × List Sexpr)
  | 0, _ => none
  | Nat.succ n, lst =>
    if atom lst then some (lst, [])
    else match lst with
      | Sexpr.atom s => some (Sexpr.atom s, [])
      | Sexpr.list xs =>
        match mapM_opt (fun c => extract_fuel catfn ignfn n c) (keep_split catfn ignfn xs).1 with
        | none => none
        | some recursed =>
          some (Sexpr.list (recursed.map Prod.fst),
            append (cons (keep_split catfn ignfn xs).2 (recursed.map Prod.snd)))

/-- Comparison definition for the extraction-partition property, following
the specification's words: the outermost occurrences, among proper subtrees
of `t`, of nodes satisfying `p`, collected left to right. -/
def outerMatches (p : Sexpr → Bool) (t : Sexpr) : List Sexpr :=
  match t with
  | Sexpr.atom _ => []
  | Sexpr.list xs =>
      append (xs.attach.map (fun y => if p y.1 then [y.1] else outerMatches p y.1))
termination_by sizeOf t
decreasing_by
  have := List.sizeOf_lt_of_mem y.2
  simp only [Sexpr.list.sizeOf_spec]
  omega

/-- Comparison definition for the extraction-partition property, following
the specification's words: `t` with the outermost occurrences of nodes
satisfying `p` deleted. -/
def removeMatches (p : Sexpr → Bool) (t : Sexpr) : Sexpr :=
  match t with
  | Sexpr.atom a => Sexpr.atom a
  | Sexpr.list xs =>
      Sexpr.list ((xs.filter (fun c => !p c)).attach.map (fun y => removeMatches p y.1))
termination_by sizeOf t
decreasing_by
  have h1 := List.mem_of_mem_filter y.2
  have h2 := List.sizeOf_lt_of_mem h1
  simp only [Sexpr.list.sizeOf_spec]
  omega

theorem outerMatches_atom (p : Sexpr → Bool) (s : Atm) :
    outerMatches p (Sexpr.atom s) = [] := by
  rw [outerMatches]

theorem outerMatches_list (p : Sexpr → Bool) (xs : List Sexpr) :
    outerMatches p (Sexpr.list xs) =
      append (xs.map (fun c => if p c then [c] else outerMatches p c)) := by
  rw [outerMatches]
  rw [List.attach_map_val _ (fun c => if p c then [c] else outerMatches p c)]

theorem removeMatches_atom (p : Sexpr → Bool) (s : Atm) :
    removeMatches p (Sexpr.atom s) = Sexpr.atom s := by
  rw [removeMatches]

theorem removeMatches_list (p : Sexpr → Bool) (xs : List Sexpr) :
    removeMatches p (Sexpr.list xs) =
      Sexpr.list ((xs.filter (fun c => !p c)).map (removeMatches p)) := by
  rw [removeMatches]
  rw [List.attach_map_val _ (fun c => removeMatches p c)]

/-- Comparison definition for the matched-children-excised-whole property,
following the claim's words: a child satisfying `p` contributes exactly
itself to the matches and is not recursed into, so none of its descendants
contributes a separate entry; recursion proceeds only into the children
that do not satisfy `p`. -/
def matchesNoDescend (p : Sexpr → Bool) (t : Sexpr) : List Sexpr :=
  match t with
  | Sexpr.atom _ => []
  | Sexpr.list xs =>
      xs.filter p ++
        append ((xs.filter (fun c => !p c)).attach.map (fun y => matchesNoDescend p y.1))
termination_by sizeOf t
decreasing_by
  have h1 := List.mem_of_mem_filter y.2
  have h2 := List.sizeOf_lt_of_mem h1
  simp only [Sexpr.list.sizeOf_spec]
  omega

theorem matchesNoDescend_atom (p : Sexpr → Bool) (s : Atm) :
    matchesNoDescend p (Sexpr.atom s) = [] := by
  rw [matchesNoDescend]

theorem matchesNoDescend_list (p : Sexpr → Bool) (xs : List Sexpr) :
    matchesNoDescend p (Sexpr.list xs) =
      xs.filter p ++ append ((xs.filter (fun c => !p c)).map (matchesNoDescend p)) := by
  rw [matchesNoDescend]
  rw [List.attach_map_val _ (fun c => matchesNoDescend p c)]

theorem mem_append_iff {α : Type} (L : List (List α)) (a : α) :
    a ∈ append L ↔ ∃ l ∈ L, a ∈ l := by
  induction L with
  | nil => simp [append]
  | cons l ls ih => simp [append, ih]

theorem append_map_perm {α β : Type} (l : List α) (f g : α → List β)
    (h : ∀ x ∈ l, List.Perm (f x) (g x)) :
    List.Perm (append (l.map f)) (append (l.map g)) := by
  induction l with
  | nil => simp [append]
  | cons x xs ih =>
    simp only [List.map_cons, append]
    exact List.Perm.append (h x (by simp)) (ih (fun y hy => h y (by simp [hy])))

/-- Collecting the matching members first and then the nested results of the
non-matching members is a permutation of the in-order interleaved collection. -/
theorem interleave_perm (p : Sexpr → Bool) (F : Sexpr → List Sexpr) (l : List Sexpr) :
    List.Perm (l.filter p ++ append ((l.filter (fun c => !p c)).map F))
      (append (l.map (fun c => if p c then [c] else F c))) := by
  induction l with
  | nil => simp [append]
  | cons x xs ih =>
    by_cases hp : p x = true
    · simp only [List.filter_cons, hp, if_true, Bool.not_true, List.map_cons, append,
        List.cons_append, List.singleton_append]
      exact List.Perm.cons x ih
    · have hp' : p x = false := by simp at hp; exact hp
      simp only [List.filter_cons, hp', Bool.false_eq_true, if_false, Bool.not_false,
        if_true, List.map_cons, append]
      have h1 : List.Perm (xs.filter p ++ (F x ++ append ((xs.filter (fun c => !p c)).map F)))
          (F x ++ (xs.filter p ++ append ((xs.filter (fun c => !p c)).map F))) := by
        rw [← List.append_assoc, ← List.append_assoc]
        exact List.Perm.append_right _ List.perm_append_comm
      exact h1.trans (List.Perm.append_left _ ih)

theorem keep_split_none_fst (p : Sexpr → Bool) (l : List Sexpr) :
    (keep_split p none l).1 = l.filter (fun c => !p c) := rfl

theorem keep_split_none_snd (p : Sexpr → Bool) (l : List Sexpr) :
    (keep_split p none l).2 = l.filter p := rfl

/-- Joint shape of `extract_category` with no ignore function: the rewritten
tree deletes the outermost matching occurrences, and the matches are those
occurrences, up to order. -/
theorem extract_none_spec (p : Sexpr → Bool) :
    ∀ t, (extract_rec p none t).1 = removeMatches p t ∧
      List.Perm (extract_rec p none t).2 (outerMatches p t) := by
  intro t
  induction t using Sexpr.strongInd with
  | ha s =>
    rw [extract_rec_atom, removeMatches_atom, outerMatches_atom]
    exact ⟨rfl, List.Perm.refl _⟩
  | hl xs ih =>
    cases xs with
    | nil =>
      rw [extract_rec_nil, removeMatches_list, outerMatches_list]
      exact ⟨by simp, by simp [append]⟩
    | cons y ys =>
      rw [extract_rec_list, keep_split_none_fst, keep_split_none_snd]
      constructor
      · rw [removeMatches_list]
        simp only [Sexpr.list.injEq]
        exact List.map_congr_left
          (fun c hc => (ih c (List.mem_of_mem_filter hc)).1)
      · rw [outerMatches_list]
        refine List.Perm.trans (List.Perm.append_left _ ?_)
          (interleave_perm p (outerMatches p) (y :: ys))
        exact append_map_perm _ _ _
          (fun c hc => (ih c (List.mem_of_mem_filter hc)).2)

/-- Every member of the matches sequence satisfies the match predicate. -/
theorem extract_matches_sat (p : Sexpr → Bool) :
    ∀ t, ∀ m ∈ (extract_rec p none t).2, p m = true := by
  intro t
  induction t using Sexpr.strongInd with
  | ha s =>
    rw [extract_rec_atom]
    intro m hm
    simp at hm
  | hl xs ih =>
    cases xs with
    | nil =>
      rw [extract_rec_nil]
      intro m hm
      simp at hm
    | cons y ys =>
      rw [extract_rec_list, keep_split_none_fst, keep_split_none_snd]
      intro m hm
      rcases List.mem_append.1 hm with hd | hnest
      · exact (List.mem_filter.1 hd).2
      · rcases (mem_append_iff _ m).1 hnest with ⟨l, hl, hml⟩
        rcases List.mem_map.1 hl with ⟨c, hc, hcl⟩
        exact ih c (List.mem_of_mem_filter hc) m (hcl ▸ hml)

/-- The matches of `extract_category` with no ignore function agree, level
by level and in order, with the collection that takes each matching child
whole and descends only into the non-matching children. -/
theorem extract_matches_eq_no_descend (p : Sexpr → Bool) :
    ∀ t, (extract_rec p none t).2 = matchesNoDescend p t := by
  intro t
  induction t using Sexpr.strongInd with
  | ha s => rw [extract_rec_atom, matchesNoDescend_atom]
  | hl xs ih =>
    cases xs with
    | nil =>
      rw [extract_rec_nil, matchesNoDescend_list]
      simp [append]
    | cons y ys =>
      rw [extract_rec_list, keep_split_none_fst, keep_split_none_snd, matchesNoDescend_list]
      show (y :: ys).filter p ++
          append (((y :: ys).filter (fun c => !p c)).map (fun c => (extract_rec p none c).2)) =
        (y :: ys).filter p ++
          append (((y :: ys).filter (fun c => !p c)).map (matchesNoDescend p))
      congr 1
      congr 1
      exact List.map_congr_left (fun c hc => ih c (List.mem_of_mem_filter hc))

/-- If the function succeeds with value `g x` on every member, `mapM_opt`
succeeds with the mapped list. -/
theorem mapM_opt_some {α β : Type} (f : α → Option β) (g : α → β) :
    ∀ l : List α, (∀ x ∈ l, f x = some (g x)) → mapM_opt f l = some (l.map g) := by
  intro l
  induction l with
  | nil => intro _; rfl
  | cons x xs ih =>
    intro h
    rw [mapM_opt, h x (by simp), ih (fun y hy => h y (by simp [hy]))]
    rfl

/-- C1: `extract_category`'s documentation promises that the ignore
function prevents recursion inside an accepted node, and the specification
claims that no element strictly inside such a node reaches the matches and
that the node passes through unchanged.  The code instead recurses into the
members of an ignored node: on the specification's own scenario
`[sent, [ignore, [a, b]], c]`, with the ignore function true on the
`[ignore, ...]` node and the match predicate true on `b`, the protected
`b` is extracted and the node is rewritten to `[ignore, [a]]`. -/
theorem C1_ignore_branch_recurses :
    extract_category
        (Sexpr.list [A "sent", Sexpr.list [A "ignore", Sexpr.list [A "a", A "b"]], A "c"])
        (fun n => decide (n = A "b"))
        (some (fun n => match n with
          | Sexpr.list (Sexpr.atom (Atm.str "ignore") :: _) => true
          | _ => false)) =
      (Sexpr.list [A "sent", Sexpr.list [A "ignore", Sexpr.list [A "a"]], A "c"],
        [A "b"]) := by
  simp [extract_category, extract_rec_list, keep_split, split_by_cond, extract_rec_atom,
    append, cons, A]

/-- C2 counterexample: `rec_remove` and `rec_replace` applied to an atomic
number that differs from the target do not return a result — Python iterates
over the input and raises `TypeError` (modelled as `none`). -/
theorem C2_atom_not_iterable :
    rec_remove (Sexpr.atom (Atm.num 0)) (Sexpr.atom (Atm.num 5)) = none ∧
      rec_replace (A "x") (A "y") (Sexpr.atom (Atm.num 5)) = none := by
  constructor
  · rfl
  · rw [rec_replace.eq_def]
    rw [if_neg (by decide)]

/-- C2 (amended): `subst`, `substall`, `extract_category`, `rec_find` and
`rec_find_if` are total over all trees (their embeddings need no `Option`),
and `rec_replace` and `rec_remove` return a result on every compound input,
on every string-atom input (Python iterates its characters), and — for
`rec_replace` — on any input equal to the target; the two fail only on a
number or `None` input that does not trigger `rec_replace`'s whole-value
check. -/
theorem C2_totality_on_compounds (old new target : Sexpr) (xs : List Sexpr) :
    (rec_replace old new (Sexpr.list xs)).isSome = true ∧
      (rec_remove target (Sexpr.list xs)).isSome = true ∧
      rec_replace old new old = some new ∧
      ∀ s : String, (rec_replace old new (Sexpr.atom (Atm.str s))).isSome = true ∧
        (rec_remove target (Sexpr.atom (Atm.str s))).isSome = true := by
  refine ⟨?_, rfl, ?_, ?_⟩
  · rw [rec_replace.eq_def]
    split
    · rfl
    · rfl
  · rw [rec_replace.eq_def, if_pos rfl]
  · intro s
    constructor
    · rw [rec_replace.eq_def]
      split
      · rfl
      · rfl
    · rfl

/-- C3 counterexample: the tree `[a]` itself satisfies the predicate
"equals `[a]`", yet the matches sequence of `extract_category` is empty —
the root node is never matched, so not every node satisfying the predicate
appears in the matches. -/
theorem C3_root_never_matched :
    (fun y => decide (y = Sexpr.list [A "a"])) (Sexpr.list [A "a"]) = true ∧
      (extract_category (Sexpr.list [A "a"])
        (fun y => decide (y = Sexpr.list [A "a"])) none).2 = [] := by
  constructor
  · decide
  · simp [extract_category, extract_rec_list, keep_split, split_by_cond, extract_rec_atom,
      append, cons, A]

/-- C3 (amended): for every tree `t` and predicate `p` with no ignore
function, the outermost occurrences among the proper subtrees of `t` of
nodes satisfying `p` (the root is never matched, and descendants of a
matched node are not matched separately) each appear exactly once in the
matches sequence — the matches are a permutation of those occurrences, the
traversal order being specified separately — and the rewritten tree is `t`
with exactly those occurrences deleted. -/
theorem C3_partition_outermost (p : Sexpr → Bool) (t : Sexpr) :
    (extract_category t p none).1 = removeMatches p t ∧
      List.Perm (extract_category t p none).2 (outerMatches p t) :=
  extract_none_spec p t

/-- C4: at every compound node not accepted by the ignore function, the
matches returned are the directly matching members, in their original
order, followed by the nested matches of each kept member, concatenated in
member order. -/
theorem C4_match_order (catfn : Sexpr → Bool) (ignfn : Option (Sexpr → Bool))
    (x : Sexpr) (xs : List Sexpr)
    (hig : ∀ g, ignfn = some g → g (Sexpr.list (x :: xs)) = false) :
    (extract_category (Sexpr.list (x :: xs)) catfn ignfn).2 =
      (x :: xs).filter catfn ++
        append (((x :: xs).filter (fun c => !catfn c)).map
          (fun c => (extract_category c catfn ignfn).2)) := by
  have hks : keep_split catfn ignfn (x :: xs) = split_by_cond (x :: xs) catfn := by
    cases ignfn with
    | none => rfl
    | some g => simp [keep_split, hig g rfl]
  rw [extract_category, extract_rec_list, hks]
  rfl

/-- C4 witness at a concrete input: tree `[b, [b]]`, predicate "equals
`b`", ignore function constantly false. -/
theorem C4_match_order_witness :
    (extract_category (Sexpr.list [A "b", Sexpr.list [A "b"]])
        (fun c => decide (c = A "b")) (some (fun _ => false))).2 =
      [A "b", Sexpr.list [A "b"]].filter (fun c => decide (c = A "b")) ++
        append (([A "b", Sexpr.list [A "b"]].filter
            (fun c => !(decide (c = A "b")))).map
          (fun c => (extract_category c (fun c => decide (c = A "b"))
            (some (fun _ => false))).2)) :=
  C4_match_order (fun c => decide (c = A "b")) (some (fun _ => false)) (A "b")
    [Sexpr.list [A "b"]] (fun g hg => by cases hg; rfl)

/-- C5: whole-tree substitution precedence — `subst(R, T, T) = R` for every
replacement `R` and tree `T`, whatever the internal structure of `T`. -/
theorem C5_whole_tree_precedence (R T : Sexpr) : subst R T T = R := by
  rw [subst, subst_rec_eq, if_pos rfl]

theorem rec_remove_body_nil (v : Sexpr) : rec_remove_body v [] = [] := by
  rw [rec_remove_body]

theorem rec_remove_body_cons (v e : Sexpr) (rest : List Sexpr) :
    rec_remove_body v (e :: rest) =
      if e = v then rec_remove_body v rest
      else match e with
        | Sexpr.list ys => Sexpr.list (rec_remove_body v ys) :: rec_remove_body v rest
        | Sexpr.atom a => Sexpr.atom a :: rec_remove_body v rest := by
  rw [rec_remove_body.eq_def]

/-- C6: `rec_remove` never removes the root — for every target `v`
(including `v` equal to the whole tree) the result on a compound is the
compound rebuilt by the member-deletion loop — and a compound emptied by
deletion is kept as an empty compound: if every member equals the target
the result is `[]`, and a compound member emptied by deletion keeps its
structural position as `[]` rather than disappearing. -/
theorem C6_root_kept_empty_preserved (v : Sexpr) (xs : List Sexpr) :
    rec_remove v (Sexpr.list xs) = some (Sexpr.list (rec_remove_body v xs)) ∧
      ((∀ e ∈ xs, e = v) → rec_remove v (Sexpr.list xs) = some (Sexpr.list [])) ∧
      ∀ (ys rest : List Sexpr), Sexpr.list ys ≠ v → (∀ e ∈ ys, e = v) →
        rec_remove_body v (Sexpr.list ys :: rest) =
          Sexpr.list [] :: rec_remove_body v rest := by
  have hempty : ∀ l : List Sexpr, (∀ e ∈ l, e = v) → rec_remove_body v l = [] := by
    intro l hl
    induction l with
    | nil => exact rec_remove_body_nil v
    | cons e rest ih =>
      rw [rec_remove_body_cons, if_pos (hl e (by simp))]
      exact ih (fun e' he' => hl e' (by simp [he']))
  refine ⟨rfl, ?_, ?_⟩
  · intro h
    rw [show rec_remove v (Sexpr.list xs) = some (Sexpr.list (rec_remove_body v xs)) from rfl,
      hempty xs h]
  · intro ys rest hne hall
    rw [rec_remove_body_cons, if_neg hne]
    have heq : Sexpr.list (rec_remove_body v ys) :: rec_remove_body v rest =
        Sexpr.list [] :: rec_remove_body v rest := by rw [hempty ys hall]
    exact heq

/-- C6 witness at concrete inputs: removing `x` from `[x, x]` yields the
empty compound, and a member `[x]` emptied by removal stays as `[]` in its
position. -/
theorem C6_root_kept_empty_preserved_witness :
    rec_remove (A "x") (Sexpr.list [A "x", A "x"]) = some (Sexpr.list []) ∧
      rec_remove_body (A "x") [Sexpr.list [A "x"], A "y"] = [Sexpr.list [], A "y"] := by
  constructor
  · exact (C6_root_kept_empty_preserved (A "x") [A "x", A "x"]).2.1 (by decide)
  · rw [(C6_root_kept_empty_preserved (A "x") []).2.2 [A "x"] [A "y"] (by decide) (by decide)]
    rw [rec_remove_body_cons, if_neg (by decide), rec_remove_body_nil]
    rfl

/-- C7: `substall` composes left to right — it is the left fold of full
`subst` passes over the pair list, and appending one more pair applies one
more full `subst` pass to the result of all earlier ones. -/
theorem C7_substall_left_to_right (lst : Sexpr) (replist : List (Sexpr × Sexpr)) :
    substall lst replist = replist.foldl (fun l q => subst q.2 q.1 l) lst ∧
      ∀ b a : Sexpr, substall lst (replist ++ [(b, a)]) = subst a b (substall lst replist) := by
  have hfold : ∀ (rl : List (Sexpr × Sexpr)) (l : Sexpr),
      substall l rl = rl.foldl (fun l q => subst q.2 q.1 l) l := by
    intro rl
    induction rl with
    | nil => intro l; rfl
    | cons hd rest ih =>
      intro l
      cases hd with
      | mk b a => rw [substall, List.foldl_cons]; exact ih (subst a b l)
  refine ⟨hfold replist lst, ?_⟩
  intro b a
  rw [hfold (replist ++ [(b, a)]) lst, List.foldl_append, ← hfold replist lst]
  rfl

/-- C8: substituting a value for itself is the identity —
`subst(x, x, t) = t` for every value `x` and tree `t`. -/
theorem C8_noop_subst_identity (x t : Sexpr) : subst x x t = t := by
  rw [subst]
  induction t using Sexpr.strongInd with
  | ha s =>
    rw [subst_rec_eq]
    by_cases h : Sexpr.atom s = x
    · rw [if_pos h, h]
    · rw [if_neg h, if_pos (by rw [atom_atom])]
  | hl xs ih =>
    rw [subst_rec_eq]
    by_cases h : Sexpr.list xs = x
    · rw [if_pos h, h]
    · rw [if_neg h]
      cases xs with
      | nil => rw [if_pos (by rw [atom_nil_list])]
      | cons y ys =>
        rw [if_neg (by rw [atom_cons_list]; exact Bool.false_ne_true)]
        simp only [Sexpr.list.injEq]
        have hmap : (y :: ys).map (subst_rec x x) = (y :: ys).map id :=
          List.map_congr_left (fun c hc => ih c hc)
        rw [hmap, List.map_id]

/-- C9: `extract_category` terminates on every finite tree — running the
same recursion with any fuel at least `sizeOf t` never exhausts the budget
and returns exactly `extract_category`'s result, and the recursion bottoms
out at atoms, the empty compound counting as an atom. -/
theorem C9_extract_terminates (catfn : Sexpr → Bool) (ignfn : Option (Sexpr → Bool)) :
    (∀ (t : Sexpr) (n : Nat), sizeOf t ≤ n →
        extract_fuel catfn ignfn n t = some (extract_category t catfn ignfn)) ∧
      (∀ s, extract_category (Sexpr.atom s) catfn ignfn = (Sexpr.atom s, [])) ∧
      extract_category (Sexpr.list []) catfn ignfn = (Sexpr.list [], []) := by
  refine ⟨?_, fun s => extract_rec_atom catfn ignfn s, extract_rec_nil catfn ignfn⟩
  intro t
  induction t using Sexpr.strongInd with
  | ha s =>
    intro n hn
    cases n with
    | zero => simp only [Sexpr.atom.sizeOf_spec] at hn; omega
    | succ m =>
      rw [extract_fuel, if_pos (by rw [atom_atom])]
      rw [extract_category, extract_rec_atom]
  | hl xs ih =>
    intro n hn
    cases n with
    | zero => simp only [Sexpr.list.sizeOf_spec] at hn; omega
    | succ m =>
      cases xs with
      | nil =>
        rw [extract_fuel, if_pos (by rw [atom_nil_list])]
        rw [extract_category, extract_rec_nil]
      | cons y ys =>
        rw [extract_fuel, if_neg (by rw [atom_cons_list]; exact Bool.false_ne_true)]
        have hrec : mapM_opt (fun c => extract_fuel catfn ignfn m c)
            (keep_split catfn ignfn (y :: ys)).1 =
            some ((keep_split catfn ignfn (y :: ys)).1.map
              (fun c => extract_rec catfn ignfn c)) := by
          apply mapM_opt_some
          intro c hc
          have hmem := keep_split_subset catfn ignfn (y :: ys) c hc
          have hsz := List.sizeOf_lt_of_mem hmem
          have hbound : sizeOf c ≤ m := by
            simp only [Sexpr.list.sizeOf_spec] at hn
            omega
          exact ih c hmem m hbound
        rw [hrec]
        rw [extract_category, extract_rec_list]
        simp only [List.map_map, cons, append, Option.some.injEq]
        constructor

/-- C9 witness at a concrete input: fuel `20` is enough for the tree
`[None, []]` with the constantly-true predicate and no ignore function. -/
theorem C9_extract_terminates_witness :
    sizeOf (Sexpr.list [Sexpr.atom Atm.nil, Sexpr.list []]) ≤ 20 ∧
      extract_fuel (fun _ => true) none 20 (Sexpr.list [Sexpr.atom Atm.nil, Sexpr.list []]) =
        some (extract_category (Sexpr.list [Sexpr.atom Atm.nil, Sexpr.list []])
          (fun _ => true) none) :=
  ⟨by decide, (C9_extract_terminates (fun _ => true) none).1
    (Sexpr.list [Sexpr.atom Atm.nil, Sexpr.list []]) 20 (by decide)⟩

/-- C10: matched children are excised whole and returned verbatim — for
every tree and predicate (no ignore function), the matches sequence equals,
level by level and in order, the collection that takes each child
satisfying the predicate whole, without recursing into it, and descends
only into the non-matching children, so descendants of a matched child
contribute no separate entries; and every matching child of a compound
appears itself, structurally unmodified, in the matches sequence. -/
theorem C10_matched_excised_whole (p : Sexpr → Bool) (t : Sexpr) :
    (extract_category t p none).2 = matchesNoDescend p t ∧
      ∀ (xs : List Sexpr) (c : Sexpr), c ∈ xs → p c = true →
        c ∈ (extract_category (Sexpr.list xs) p none).2 := by
  constructor
  · exact extract_matches_eq_no_descend p t
  · intro xs c hc hp
    rw [extract_category, extract_matches_eq_no_descend, matchesNoDescend_list]
    exact List.mem_append_left _ (List.mem_filter.2 ⟨hc, hp⟩)

/-- C10 witness at a mixed-children input: in `[a, [a, b]]` with the
predicate true on `[a, b]` and on `b`, the matched child `[a, b]` appears
verbatim in the matches and its descendant `b`, though it satisfies the
predicate, contributes no separate entry — the matches are exactly
`[[a, b]]`. -/
theorem C10_matched_excised_whole_witness :
    Sexpr.list [A "a", A "b"] ∈ [A "a", Sexpr.list [A "a", A "b"]] ∧
      (fun y => (decide (y = Sexpr.list [A "a", A "b"]) || decide (y = A "b")))
        (Sexpr.list [A "a", A "b"]) = true ∧
      (fun y => (decide (y = Sexpr.list [A "a", A "b"]) || decide (y = A "b"))) (A "b") = true ∧
      Sexpr.list [A "a", A "b"] ∈
        (extract_category (Sexpr.list [A "a", Sexpr.list [A "a", A "b"]])
          (fun y => (decide (y = Sexpr.list [A "a", A "b"]) || decide (y = A "b"))) none).2 ∧
      (extract_category (Sexpr.list [A "a", Sexpr.list [A "a", A "b"]])
          (fun y => (decide (y = Sexpr.list [A "a", A "b"]) || decide (y = A "b"))) none).2 =
        [Sexpr.list [A "a", A "b"]] := by
  refine ⟨by decide, by decide, by decide, ?_, ?_⟩
  · exact (C10_matched_excised_whole
        (fun y => (decide (y = Sexpr.list [A "a", A "b"]) || decide (y = A "b"))) (A "z")).2
      [A "a", Sexpr.list [A "a", A "b"]] (Sexpr.list [A "a", A "b"]) (by decide) (by decide)
  · simp [extract_category, extract_rec_list, keep_split, split_by_cond, extract_rec_atom,
      append, cons, A]
